import Mathlib

/-!
Verification of the `codex-indexer` cache and semantic-index core.

The definitions below are a shallow embedding of the Rust sources under
`codex-rs/core/src`:

* `CacheStore` embeds `cache/store.rs` (the disk cache store, its index,
  TTL expiry and LRU eviction).  The on-disk state (index plus `entries/`
  directory) is modelled as an explicit `CacheState` value; the in-memory
  `HashMap` is modelled as an association list in its iteration order, and
  each operation is a pure state transformer parameterised by the clock
  reading (`now_epoch_secs`).  `u64` quantities are embedded as `Nat`;
  Rust's `saturating_sub` coincides with truncated `Nat` subtraction.
* `ToolCacheKey` embeds `cache/tool_cache.rs` (canonical-JSON cache keys).
* `Semantic` embeds `semantic/index.rs` (chunking, search ranking) and
  `semantic/vector_store.rs` (embedding blob encode/decode).
* `Manager` embeds `cache/manager.rs` and `telemetry/mod.rs`.
-/

namespace CacheStore

/-- A cached payload (`Vec<u8>`), one `Nat` per byte. -/
abbrev Bytes := List Nat

/-- `CacheIndexEntry` from `cache/store.rs`: the persisted metadata kept for
one key.  Epochs are seconds since the Unix epoch (`u64`, embedded as `Nat`). -/
structure CacheIndexEntry where
  size_bytes : Nat
  inserted_epoch : Nat
  last_access_epoch : Nat
  ttl_secs : Nat
deriving DecidableEq, Repr

/-- `CacheIndexEntry::is_expired_at`: a TTL of zero is always expired,
otherwise `now.saturating_sub(inserted_epoch) > ttl_secs` (truncated `Nat`
subtraction is exactly `saturating_sub`). -/
def is_expired_at (e : CacheIndexEntry) (now : Nat) : Bool :=
  if e.ttl_secs = 0 then true
  else decide (now - e.inserted_epoch > e.ttl_secs)

/-- The whole observable store state: the `CacheIndex` (entries in the hash
map's iteration order together with `total_bytes`) plus the contents of the
`entries/` payload directory, modelled as a partial map from key to bytes. -/
structure CacheState where
  entries : List (String × CacheIndexEntry)
  total_bytes : Nat
  files : String → Option Bytes

/-- The empty store: what `DiskCacheStore::new` yields on a fresh directory. -/
def emptyState : CacheState :=
  { entries := [], total_bytes := 0, files := fun _ => none }

/-- One fold step of `Iterator::min_by_key(last_access_epoch)`: keep the
earlier element on ties (Rust's `min_by_key` returns the first minimum). -/
def oldestStep (acc : Option (String × CacheIndexEntry))
    (p : String × CacheIndexEntry) : Option (String × CacheIndexEntry) :=
  match acc with
  | none => some p
  | some q => if p.2.last_access_epoch < q.2.last_access_epoch then some p else some q

/-- `CacheIndex::oldest_entry`: the first entry (in iteration order) whose
`last_access_epoch` is minimal. -/
def oldest_entry (entries : List (String × CacheIndexEntry)) :
    Option (String × CacheIndexEntry) :=
  entries.foldl oldestStep none

/-- `CacheIndex::remove_entry`: if the key is present, drop it from the index,
subtract its recorded size from `total_bytes` (saturating), and delete its
payload file. -/
def remove_entry (s : CacheState) (key : String) : CacheState :=
  match s.entries.lookup key with
  | none => s
  | some e =>
      { entries := s.entries.eraseP (fun p => p.1 == key)
        total_bytes := s.total_bytes - e.size_bytes
        files := fun k => if k = key then none else s.files k }

theorem lookup_isSome_of_mem {l : List (String × CacheIndexEntry)} {k : String}
    {e : CacheIndexEntry} (h : (k, e) ∈ l) : (l.lookup k).isSome := by
  rw [List.lookup_isSome_iff]
  exact ⟨(k, e), h, by simp⟩

theorem oldestStep_some {acc : Option (String × CacheIndexEntry)}
    {p : String × CacheIndexEntry} : (oldestStep acc p).isSome := by
  cases acc <;> simp [oldestStep]
  split <;> simp

/-- The accumulator-fold behind `oldest_entry` always yields an element of
`q :: l`, minimal for `last_access_epoch` among them. -/
theorem oldest_go_spec (l : List (String × CacheIndexEntry)) :
    ∀ q, ∃ r, l.foldl oldestStep (some q) = some r ∧ (r = q ∨ r ∈ l) ∧
      r.2.last_access_epoch ≤ q.2.last_access_epoch ∧
      ∀ x ∈ l, r.2.last_access_epoch ≤ x.2.last_access_epoch := by
  induction l with
  | nil => intro q; exact ⟨q, rfl, Or.inl rfl, le_refl _, by simp⟩
  | cons p t ih =>
    intro q
    by_cases hlt : p.2.last_access_epoch < q.2.last_access_epoch
    · obtain ⟨r, hfold, hmem, hle, hmin⟩ := ih p
      refine ⟨r, ?_, ?_, ?_, ?_⟩
      · simpa [oldestStep, hlt] using hfold
      · rcases hmem with h | h
        · exact Or.inr (by simp [h])
        · exact Or.inr (by simp [h])
      · exact le_trans hle (le_of_lt hlt)
      · intro x hx
        rcases List.mem_cons.mp hx with h | h
        · exact h ▸ hle
        · exact hmin x h
    · obtain ⟨r, hfold, hmem, hle, hmin⟩ := ih q
      refine ⟨r, ?_, ?_, hle, ?_⟩
      · simpa [oldestStep, hlt] using hfold
      · rcases hmem with h | h
        · exact Or.inl h
        · exact Or.inr (by simp [h])
      · intro x hx
        rcases List.mem_cons.mp hx with h | h
        · exact h ▸ le_trans hle (Nat.le_of_not_lt hlt)
        · exact hmin x h

/-- `oldest_entry` on a non-empty index returns a member that is minimal for
`last_access_epoch`. -/
theorem oldest_entry_spec {l : List (String × CacheIndexEntry)}
    {r : String × CacheIndexEntry} (h : oldest_entry l = some r) :
    r ∈ l ∧ ∀ x ∈ l, r.2.last_access_epoch ≤ x.2.last_access_epoch := by
  cases l with
  | nil => simp [oldest_entry] at h
  | cons p t =>
    have hfold : t.foldl oldestStep (some p) = some r := by
      simpa [oldest_entry, List.foldl_cons, oldestStep] using h
    obtain ⟨r', hf, hmem, hle, hmin⟩ := oldest_go_spec t p
    rw [hfold] at hf
    cases hf
    constructor
    · rcases hmem with h' | h'
      · simp [h']
      · simp [h']
    · intro x hx
      rcases List.mem_cons.mp hx with h' | h'
      · exact h' ▸ hle
      · exact hmin x h'

@[simp] theorem oldest_entry_nil : oldest_entry [] = none := rfl

theorem oldest_entry_eq_none_iff {l : List (String × CacheIndexEntry)} :
    oldest_entry l = none ↔ l = [] := by
  constructor
  · intro h
    cases l with
    | nil => rfl
    | cons p t =>
      exfalso
      obtain ⟨r, hf, _, _, _⟩ := oldest_go_spec t p
      have : oldest_entry (p :: t) = some r := by
        simpa [oldest_entry, List.foldl_cons, oldestStep] using hf
      rw [this] at h; exact Option.noConfusion h
  · intro h; subst h; rfl

theorem remove_entry_length_lt {s : CacheState} {k : String}
    {e : CacheIndexEntry} (h : (k, e) ∈ s.entries) :
    (remove_entry s k).entries.length < s.entries.length := by
  have hs := lookup_isSome_of_mem h
  unfold remove_entry
  cases hl : s.entries.lookup k with
  | none => rw [hl] at hs; simp at hs
  | some e' =>
      simp only
      have hlen := List.length_eraseP_of_mem h (p := fun p => p.1 == k) (by simp)
      rw [hlen]
      have : 0 < s.entries.length := List.length_pos.mpr (List.ne_nil_of_mem h)
      omega

/-- The eviction loop in `DiskCacheStore::put`: while the incoming size would
push `total_bytes` beyond the budget, remove the oldest entry; the list of
evicted keys is recorded in order (the source counts them). -/
def evict_loop (s : CacheState) (size_bytes max_bytes : Nat)
    (evicted : List String) : CacheState × List String :=
  if s.total_bytes + size_bytes > max_bytes then
    match h : oldest_entry s.entries with
    | some p => evict_loop (remove_entry s p.1) size_bytes max_bytes (evicted ++ [p.1])
    | none => (s, evicted)
  else (s, evicted)
termination_by s.entries.length
decreasing_by
  exact remove_entry_length_lt (oldest_entry_spec h).1

/-- Result of `DiskCacheStore::put`: the new state and the evicted keys in
eviction order (`CacheStorePutOutcome { evicted }` is their count). -/
structure PutResult where
  state : CacheState
  evicted_keys : List String

/-- `DiskCacheStore::put`: no-op when the budget is zero or the value alone
exceeds it; otherwise remove any existing entry for the key, evict oldest
entries until the value fits, write the payload file and insert the fresh
index entry (`inserted_epoch = last_access_epoch = now`). -/
def put (s : CacheState) (key : String) (value : Bytes)
    (ttl_secs now max_bytes : Nat) : PutResult :=
  if max_bytes = 0 then ⟨s, []⟩
  else
    let size_bytes := value.length
    if size_bytes > max_bytes then ⟨s, []⟩
    else
      let s1 := if (s.entries.lookup key).isSome then remove_entry s key else s
      let r := evict_loop s1 size_bytes max_bytes []
      let s3 : CacheState :=
        { entries := r.1.entries ++ [(key, ⟨size_bytes, now, now, ttl_secs⟩)]
          total_bytes := r.1.total_bytes + size_bytes
          files := fun k => if k = key then some value else r.1.files k }
      ⟨s3, r.2⟩

/-- `DiskCacheStore::get`: miss on absent key; expired or file-missing
entries are removed and reported as a miss; otherwise the payload is read
and `last_access_epoch` is bumped to `now` in place. -/
def get (s : CacheState) (key : String) (now : Nat) : Option Bytes × CacheState :=
  match s.entries.lookup key with
  | none => (none, s)
  | some e =>
      if is_expired_at e now then (none, remove_entry s key)
      else
        match s.files key with
        | none => (none, remove_entry s key)
        | some value =>
            (some value,
              { s with entries := s.entries.map (fun p =>
                  if p.1 == key then (p.1, { p.2 with last_access_epoch := now }) else p) })

/-- `DiskCacheStore::remove`. -/
def removeOp (s : CacheState) (key : String) : CacheState := remove_entry s key

/-- `CacheIndex::clear`: delete every payload file named by an index key,
drop all entries and reset `total_bytes`. -/
def clear (s : CacheState) : CacheState :=
  { entries := []
    total_bytes := 0
    files := fun k => if (s.entries.lookup k).isSome then none else s.files k }

/-- One public store operation, with the clock reading it observes. -/
inductive CacheOp where
  | get (key : String) (now : Nat)
  | put (key : String) (value : Bytes) (ttl_secs now : Nat)
  | remove (key : String)
  | clear

/-- Interpret one operation as a state transformer (`max_bytes` is the
store's configured budget). -/
def step (max_bytes : Nat) (s : CacheState) : CacheOp → CacheState
  | .get k now => (get s k now).2
  | .put k v ttl now => (put s k v ttl now max_bytes).state
  | .remove k => removeOp s k
  | .clear => clear s

/-- Run a sequence of operations from a state. -/
def run (max_bytes : Nat) (s : CacheState) (ops : List CacheOp) : CacheState :=
  ops.foldl (step max_bytes) s

/-- Sum of the recorded `size_bytes` over the index entries. -/
def sizeSum (l : List (String × CacheIndexEntry)) : Nat :=
  (l.map (fun p => p.2.size_bytes)).sum

/-- The store's structural invariant: index keys are distinct and
`total_bytes` is the sum of the recorded entry sizes. -/
def Inv (s : CacheState) : Prop :=
  (s.entries.map Prod.fst).Nodup ∧ s.total_bytes = sizeSum s.entries

theorem mem_of_lookup_eq_some {l : List (String × CacheIndexEntry)} {k : String}
    {e : CacheIndexEntry} (h : l.lookup k = some e) : (k, e) ∈ l := by
  obtain ⟨l₁, l₂, rfl, -⟩ := List.lookup_eq_some_iff.mp h
  simp

theorem sizeSum_append (l₁ l₂ : List (String × CacheIndexEntry)) :
    sizeSum (l₁ ++ l₂) = sizeSum l₁ + sizeSum l₂ := by
  simp [sizeSum]

theorem size_le_sizeSum {l : List (String × CacheIndexEntry)} {k : String}
    {e : CacheIndexEntry} (h : (k, e) ∈ l) : e.size_bytes ≤ sizeSum l := by
  refine List.single_le_sum (by simp) _ ?_
  exact List.mem_map.mpr ⟨(k, e), h, rfl⟩

theorem sizeSum_eraseP {l : List (String × CacheIndexEntry)} {k : String}
    {e : CacheIndexEntry} (h : l.lookup k = some e) :
    sizeSum (l.eraseP (fun p => p.1 == k)) = sizeSum l - e.size_bytes := by
  induction l with
  | nil => simp [List.lookup] at h
  | cons p t ih =>
    by_cases hk : k = p.1
    · have he : e = p.2 := by
        rw [List.lookup_cons] at h
        simp [hk] at h
        exact h.symm
      subst he
      rw [List.eraseP_cons_of_pos (by simp [hk])]
      simp [sizeSum, hk]
    · have ht : t.lookup k = some e := by
        rw [List.lookup_cons] at h
        simpa [show (k == p.1) = false by simp [hk]] using h
      have hle : e.size_bytes ≤ sizeSum t := size_le_sizeSum (mem_of_lookup_eq_some ht)
      rw [List.eraseP_cons_of_neg (by simp [Ne.symm hk])]
      have := ih ht
      simp only [sizeSum, List.map_cons, List.sum_cons] at *
      omega

theorem keys_eraseP_not_mem {l : List (String × CacheIndexEntry)} {k : String}
    (hnd : (l.map Prod.fst).Nodup) :
    k ∉ (l.eraseP (fun p => p.1 == k)).map Prod.fst := by
  induction l with
  | nil => simp
  | cons p t ih =>
    simp only [List.map_cons, List.nodup_cons] at hnd
    by_cases hk : p.1 = k
    · rw [List.eraseP_cons_of_pos (by simp [hk])]
      rw [← hk]
      exact fun hmem => hnd.1 hmem
    · rw [List.eraseP_cons_of_neg (by simp [hk])]
      intro hmem
      rcases List.mem_map.mp hmem with ⟨q, hq, hfst⟩
      rcases List.mem_cons.mp hq with rfl | hq'
      · exact hk hfst
      · exact ih hnd.2 (List.mem_map.mpr ⟨q, hq', hfst⟩)

theorem nodup_keys_eraseP {l : List (String × CacheIndexEntry)}
    {p : String × CacheIndexEntry → Bool} (hnd : (l.map Prod.fst).Nodup) :
    ((l.eraseP p).map Prod.fst).Nodup :=
  ((List.eraseP_sublist l).map Prod.fst).nodup hnd

theorem Inv_remove_entry {s : CacheState} (h : Inv s) (k : String) :
    Inv (remove_entry s k) := by
  unfold remove_entry
  cases hl : s.entries.lookup k with
  | none => exact h
  | some e =>
    refine ⟨nodup_keys_eraseP h.1, ?_⟩
    simp only
    rw [sizeSum_eraseP hl, h.2]

theorem remove_entry_entries_sublist (s : CacheState) (k : String) :
    (remove_entry s k).entries.Sublist s.entries := by
  unfold remove_entry
  cases s.entries.lookup k with
  | none => exact List.Sublist.refl _
  | some e => exact List.eraseP_sublist _

theorem evict_loop_inv (size_bytes max_bytes : Nat) :
    ∀ n (s : CacheState) (acc : List String), s.entries.length ≤ n → Inv s →
      Inv (evict_loop s size_bytes max_bytes acc).1 := by
  intro n
  induction n with
  | zero =>
    intro s acc hlen hinv
    have hnil : s.entries = [] := List.length_eq_zero.mp (Nat.le_zero.mp hlen)
    rw [evict_loop]
    split
    · split
      · rename_i p hp
        rw [hnil] at hp
        simp at hp
      · exact hinv
    · exact hinv
  | succ n ih =>
    intro s acc hlen hinv
    rw [evict_loop]
    split
    · split
      · rename_i p hp
        have hmem := (oldest_entry_spec hp).1
        have hlt := remove_entry_length_lt (s := s) (k := p.1) (e := p.2) hmem
        exact ih _ _ (by omega) (Inv_remove_entry hinv p.1)
      · exact hinv
    · exact hinv

theorem evict_loop_entries_sublist (size_bytes max_bytes : Nat) :
    ∀ n (s : CacheState) (acc : List String), s.entries.length ≤ n →
      (evict_loop s size_bytes max_bytes acc).1.entries.Sublist s.entries := by
  intro n
  induction n with
  | zero =>
    intro s acc hlen
    have hnil : s.entries = [] := List.length_eq_zero.mp (Nat.le_zero.mp hlen)
    rw [evict_loop]
    split
    · split
      · rename_i p hp
        rw [hnil] at hp
        simp at hp
      · exact List.Sublist.refl _
    · exact List.Sublist.refl _
  | succ n ih =>
    intro s acc hlen
    rw [evict_loop]
    split
    · split
      · rename_i p hp
        have hmem := (oldest_entry_spec hp).1
        have hlt := remove_entry_length_lt (s := s) (k := p.1) (e := p.2) hmem
        exact (ih _ _ (by omega)).trans (remove_entry_entries_sublist s p.1)
      · exact List.Sublist.refl _
    · exact List.Sublist.refl _

theorem not_mem_keys_of_lookup_none {l : List (String × CacheIndexEntry)}
    {k : String} (h : l.lookup k = none) : k ∉ l.map Prod.fst := by
  intro hmem
  rcases List.mem_map.mp hmem with ⟨p, hp, hfst⟩
  have := List.lookup_eq_none_iff.mp h p hp
  simp [← hfst] at this

theorem key_not_mem_after_remove {s : CacheState} {key : String}
    (hnd : (s.entries.map Prod.fst).Nodup) :
    key ∉ (remove_entry s key).entries.map Prod.fst := by
  unfold remove_entry
  cases hl : s.entries.lookup key with
  | none => exact not_mem_keys_of_lookup_none hl
  | some e => exact keys_eraseP_not_mem hnd

/-- The state assembled at the end of `put` (payload written, sizes added,
fresh index entry appended) keeps the invariant, given that the key was
removed beforehand. -/
theorem Inv_insert_after_evict {s1 : CacheState} {key : String}
    (hinv1 : Inv s1) (hkey1 : key ∉ s1.entries.map Prod.fst)
    (value : Bytes) (ttl_secs now max_bytes : Nat) :
    Inv { entries := (evict_loop s1 value.length max_bytes []).1.entries ++
            [(key, ⟨value.length, now, now, ttl_secs⟩)]
          total_bytes := (evict_loop s1 value.length max_bytes []).1.total_bytes + value.length
          files := fun k => if k = key then some value
            else (evict_loop s1 value.length max_bytes []).1.files k } := by
  have hinv2 := evict_loop_inv value.length max_bytes
    s1.entries.length s1 [] (le_refl _) hinv1
  have hsub := evict_loop_entries_sublist value.length max_bytes
    s1.entries.length s1 [] (le_refl _)
  have hkey2 : key ∉ (evict_loop s1 value.length max_bytes []).1.entries.map Prod.fst :=
    fun hm => hkey1 ((hsub.map Prod.fst).mem hm)
  refine ⟨?_, ?_⟩
  · simp only [List.map_append, List.map_cons, List.map_nil]
    rw [List.nodup_append]
    refine ⟨hinv2.1, List.nodup_singleton _, ?_⟩
    intro a ha hb
    simp only [List.mem_singleton] at hb
    subst hb
    exact hkey2 ha
  · show _ = sizeSum _
    rw [sizeSum_append, ← hinv2.2]
    simp [sizeSum]

theorem Inv_put {s : CacheState} (h : Inv s) (key : String) (value : Bytes)
    (ttl_secs now max_bytes : Nat) : Inv (put s key value ttl_secs now max_bytes).state := by
  unfold put
  split
  · exact h
  · split
    · dsimp only
      split
      · exact h
      · exact Inv_insert_after_evict (Inv_remove_entry h key)
          (key_not_mem_after_remove h.1) value ttl_secs now max_bytes
    · rename_i hns
      dsimp only
      split
      · exact h
      · exact Inv_insert_after_evict h
          (not_mem_keys_of_lookup_none (Option.not_isSome_iff_eq_none.mp hns))
          value ttl_secs now max_bytes

theorem Inv_get {s : CacheState} (h : Inv s) (key : String) (now : Nat) :
    Inv (get s key now).2 := by
  unfold get
  split
  · exact h
  · split
    · exact Inv_remove_entry h key
    · split
      · exact Inv_remove_entry h key
      · have hfst : (Prod.fst ∘ fun p : String × CacheIndexEntry =>
            if p.1 == key then (p.1, { p.2 with last_access_epoch := now }) else p) =
            Prod.fst := by
          funext p
          by_cases hp : p.1 = key <;> simp [hp]
        have hsz : ((fun p : String × CacheIndexEntry => p.2.size_bytes) ∘ fun p =>
            if p.1 == key then (p.1, { p.2 with last_access_epoch := now }) else p) =
            fun p : String × CacheIndexEntry => p.2.size_bytes := by
          funext p
          by_cases hp : p.1 = key <;> simp [hp]
        refine ⟨?_, ?_⟩
        · rw [List.map_map, hfst]
          exact h.1
        · show s.total_bytes = sizeSum _
          unfold sizeSum
          rw [List.map_map, hsz]
          exact h.2

theorem Inv_clear (s : CacheState) : Inv (clear s) := by
  exact ⟨List.nodup_nil, rfl⟩

theorem Inv_step {s : CacheState} (h : Inv s) (max_bytes : Nat) (op : CacheOp) :
    Inv (step max_bytes s op) := by
  cases op with
  | get k now => exact Inv_get h k now
  | put k v ttl now => exact Inv_put h k v ttl now max_bytes
  | remove k => exact Inv_remove_entry h k
  | clear => exact Inv_clear s

theorem Inv_run {s : CacheState} (h : Inv s) (max_bytes : Nat) (ops : List CacheOp) :
    Inv (run max_bytes s ops) := by
  induction ops generalizing s with
  | nil => exact h
  | cons op rest ih => exact ih (Inv_step h max_bytes op)

theorem put_alpha_empty (vA : Bytes) (ttlA t0 : Nat) (hA : vA.length = 6) :
    put emptyState "alpha" vA ttlA t0 10 =
      ⟨⟨[("alpha", ⟨6, t0, t0, ttlA⟩)], 6, fun k => if k = "alpha" then some vA else none⟩,
        []⟩ := by
  simp [put, emptyState, evict_loop.eq_def, hA]

theorem put_bravo_after_alpha (vA vB : Bytes) (ttlA ttlB t0 t1 : Nat)
    (hB : vB.length = 6) :
    put ⟨[("alpha", ⟨6, t0, t0, ttlA⟩)], 6,
          fun k => if k = "alpha" then some vA else none⟩ "bravo" vB ttlB t1 10 =
      ⟨⟨[("bravo", ⟨6, t1, t1, ttlB⟩)], 6,
          fun k => if k = "bravo" then some vB
            else if k = "alpha" then none
            else if k = "alpha" then some vA else none⟩,
        ["alpha"]⟩ := by
  simp [put, evict_loop.eq_def, remove_entry, oldest_entry, oldestStep,
    List.lookup, hB]

/-- C1: with a byte budget of 10, storing a 6-byte `"alpha"` and then a
6-byte `"bravo"` (nonzero TTLs) makes the second `put` evict the entry with
the oldest `last_access_epoch` — `"alpha"`, the only candidate — reporting
exactly one eviction, after which `get("alpha")` misses and `get("bravo")`
returns the stored bytes (the gets happen within `"bravo"`'s TTL). -/
theorem C1_budget_eviction (vA vB : Bytes) (ttlA ttlB t0 t1 t2 : Nat)
    (hA : vA.length = 6) (hB : vB.length = 6)
    (htA : ttlA ≠ 0) (htB : ttlB ≠ 0) (hfresh : t2 - t1 ≤ ttlB) :
    (put (put emptyState "alpha" vA ttlA t0 10).state "bravo" vB ttlB t1 10).evicted_keys
        = ["alpha"] ∧
    (put (put emptyState "alpha" vA ttlA t0 10).state "bravo" vB ttlB t1 10).evicted_keys.length
        = 1 ∧
    (get (put (put emptyState "alpha" vA ttlA t0 10).state "bravo" vB ttlB t1 10).state
        "alpha" t2).1 = none ∧
    (get (put (put emptyState "alpha" vA ttlA t0 10).state "bravo" vB ttlB t1 10).state
        "bravo" t2).1 = some vB := by
  rw [put_alpha_empty vA ttlA t0 hA, put_bravo_after_alpha vA vB ttlA ttlB t0 t1 hB]
  have hexp : is_expired_at ⟨6, t1, t1, ttlB⟩ t2 = false := by
    simp [is_expired_at, htB]
    omega
  refine ⟨rfl, rfl, ?_, ?_⟩
  · simp [get, List.lookup]
  · simp [get, List.lookup, hexp]

theorem lookup_none_of_not_mem {l : List (String × CacheIndexEntry)} {k : String}
    (h : k ∉ l.map Prod.fst) : l.lookup k = none := by
  rw [List.lookup_eq_none_iff]
  intro p hp
  simp only [bne_iff_ne, ne_eq]
  intro hk
  exact h (List.mem_map.mpr ⟨p, hp, hk.symm⟩)

theorem key_not_mem_evict {s1 : CacheState} {key : String}
    (hkey1 : key ∉ s1.entries.map Prod.fst) (sz mb : Nat) :
    key ∉ (evict_loop s1 sz mb []).1.entries.map Prod.fst := fun hm =>
  hkey1 (((evict_loop_entries_sublist sz mb s1.entries.length s1 [] le_rfl).map
    Prod.fst).mem hm)

/-- After a successful `put` (nonzero budget, value within budget) the state
is: some evicted residue not containing the key, with the fresh entry
appended, the value's size added, and the payload file written. -/
theorem put_state_decomp (s : CacheState) (key : String) (value : Bytes)
    (ttl_secs now max_bytes : Nat) (hnd : (s.entries.map Prod.fst).Nodup)
    (hmb : max_bytes ≠ 0) (hsz : value.length ≤ max_bytes) :
    ∃ t : CacheState,
      (put s key value ttl_secs now max_bytes).state.entries =
        t.entries ++ [(key, ⟨value.length, now, now, ttl_secs⟩)] ∧
      key ∉ t.entries.map Prod.fst ∧
      (put s key value ttl_secs now max_bytes).state.total_bytes =
        t.total_bytes + value.length ∧
      ∀ k, (put s key value ttl_secs now max_bytes).state.files k =
        (if k = key then some value else t.files k) := by
  unfold put
  rw [if_neg hmb]
  dsimp only
  rw [if_neg (by omega)]
  split
  · exact ⟨(evict_loop (remove_entry s key) value.length max_bytes []).1, rfl,
      key_not_mem_evict (key_not_mem_after_remove hnd) _ _, rfl, fun k => rfl⟩
  · rename_i hns
    exact ⟨(evict_loop s value.length max_bytes []).1, rfl,
      key_not_mem_evict (not_mem_keys_of_lookup_none
        (Option.not_isSome_iff_eq_none.mp hns)) _ _, rfl, fun k => rfl⟩

/-- C3: an entry stored with TTL zero is expired on the very next `get` of
its key: the get misses, and it removes the entry — the key leaves the index,
the payload file is deleted, and `total_bytes` drops by the entry's size. -/
theorem C3_zero_ttl_removed_on_get (s : CacheState) (key : String) (value : Bytes)
    (now now' max_bytes : Nat) (hnd : (s.entries.map Prod.fst).Nodup)
    (hmb : max_bytes ≠ 0) (hsz : value.length ≤ max_bytes) :
    (get (put s key value 0 now max_bytes).state key now').1 = none ∧
    (get (put s key value 0 now max_bytes).state key now').2.entries.lookup key = none ∧
    (get (put s key value 0 now max_bytes).state key now').2.files key = none ∧
    (get (put s key value 0 now max_bytes).state key now').2.total_bytes =
      (put s key value 0 now max_bytes).state.total_bytes - value.length := by
  obtain ⟨t, he, hk, htot, hf⟩ :=
    put_state_decomp s key value 0 now max_bytes hnd hmb hsz
  have hlookL : t.entries.lookup key = none := lookup_none_of_not_mem hk
  have hlook : (put s key value 0 now max_bytes).state.entries.lookup key =
      some ⟨value.length, now, now, 0⟩ := by
    rw [he, List.lookup_append, hlookL]
    simp
  have hexp : is_expired_at ⟨value.length, now, now, 0⟩ now' = true := by
    simp [is_expired_at]
  have herase : (put s key value 0 now max_bytes).state.entries.eraseP
      (fun p => p.1 == key) = t.entries := by
    rw [he, List.eraseP_append_right _ (by
      intro b hb
      simp only [beq_iff_eq]
      intro hbk
      exact hk (List.mem_map.mpr ⟨b, hb, hbk⟩))]
    simp
  simp only [get, hlook, hexp, if_true, remove_entry, herase]
  simp [hlookL]

theorem C3_zero_ttl_removed_on_get_witness :
    (get (put emptyState "k" [1, 2, 3] 0 5 10).state "k" 9).1 = none ∧
    (get (put emptyState "k" [1, 2, 3] 0 5 10).state "k" 9).2.entries.lookup "k" = none ∧
    (get (put emptyState "k" [1, 2, 3] 0 5 10).state "k" 9).2.files "k" = none ∧
    (get (put emptyState "k" [1, 2, 3] 0 5 10).state "k" 9).2.total_bytes =
      (put emptyState "k" [1, 2, 3] 0 5 10).state.total_bytes - ([1, 2, 3] : Bytes).length :=
  C3_zero_ttl_removed_on_get emptyState "k" [1, 2, 3] 5 9 10 (by simp [emptyState])
    (by decide) (by decide)

/-- C2: from the empty (freshly created) store, any sequence of `get`, `put`,
`remove` and `clear` operations leaves the sum of the `size_bytes` recorded
in the index equal to the tracked `total_bytes`. -/
theorem C2_total_bytes_tracks_sizes (max_bytes : Nat) (ops : List CacheOp) :
    (run max_bytes emptyState ops).total_bytes = sizeSum (run max_bytes emptyState ops).entries :=
  (Inv_run (s := emptyState) ⟨List.nodup_nil, rfl⟩ max_bytes ops).2

theorem C1_budget_eviction_witness :
    (put (put emptyState "alpha" (List.replicate 6 49) 60 100 10).state "bravo"
        (List.replicate 6 50) 60 100 10).evicted_keys = ["alpha"] ∧
    (put (put emptyState "alpha" (List.replicate 6 49) 60 100 10).state "bravo"
        (List.replicate 6 50) 60 100 10).evicted_keys.length = 1 ∧
    (get (put (put emptyState "alpha" (List.replicate 6 49) 60 100 10).state "bravo"
        (List.replicate 6 50) 60 100 10).state "alpha" 100).1 = none ∧
    (get (put (put emptyState "alpha" (List.replicate 6 49) 60 100 10).state "bravo"
        (List.replicate 6 50) 60 100 10).state "bravo" 100).1 = some (List.replicate 6 50) :=
  C1_budget_eviction _ _ 60 60 100 100 100 (by simp) (by simp) (by decide) (by decide)
    (by decide)

/-! Determinism of eviction-victim selection (C4).  The Rust index is a
`HashMap`; its iteration order is what `min_by_key` ties are broken by, and
that order is not a function of the key→entry map contents.  The embedding
exposes the iteration order as the list order, so "equal index states" in
the sense of equal maps is list permutation. -/

/-- No two index entries share a `last_access_epoch`. -/
def NoTies (l : List (String × CacheIndexEntry)) : Prop :=
  (l.map (fun p => p.2.last_access_epoch)).Nodup

theorem mem_lookup_of_nodup {l : List (String × CacheIndexEntry)} {k : String}
    {e : CacheIndexEntry} (hnd : (l.map Prod.fst).Nodup) (h : (k, e) ∈ l) :
    l.lookup k = some e := by
  induction l with
  | nil => simp at h
  | cons p t ih =>
    simp only [List.map_cons, List.nodup_cons] at hnd
    rcases List.mem_cons.mp h with rfl | hmem
    · simp
    · have hne : k ≠ p.1 := by
        intro hkp
        exact hnd.1 (List.mem_map.mpr ⟨(k, e), hmem, hkp⟩)
      rw [List.lookup_cons]
      simp only [show (k == p.1) = false by simp [hne]]
      exact ih hnd.2 hmem

theorem eraseP_eq_filter_of_nodup {l : List (String × CacheIndexEntry)} {k : String}
    (hnd : (l.map Prod.fst).Nodup) :
    l.eraseP (fun p => p.1 == k) = l.filter (fun p => !(p.1 == k)) := by
  induction l with
  | nil => simp
  | cons p t ih =>
    simp only [List.map_cons, List.nodup_cons] at hnd
    by_cases hp : p.1 = k
    · rw [List.eraseP_cons_of_pos (by simp [hp])]
      rw [List.filter_cons_of_neg (by simp [hp])]
      symm
      rw [List.filter_eq_self]
      intro a ha
      simp only [Bool.not_eq_true', beq_eq_false_iff_ne, ne_eq]
      intro hak
      exact hnd.1 (List.mem_map.mpr ⟨a, ha, by rw [hak, hp]⟩)
    · rw [List.eraseP_cons_of_neg (by simp [hp]),
        List.filter_cons_of_pos (by simp [hp]), ih hnd.2]

/-- Under a permutation of the index, with all `last_access_epoch`s distinct,
`oldest_entry` picks the same victim. -/
theorem oldest_entry_perm {l₁ l₂ : List (String × CacheIndexEntry)}
    (hperm : l₁.Perm l₂) (hties : NoTies l₁) :
    oldest_entry l₁ = oldest_entry l₂ := by
  cases h1 : oldest_entry l₁ with
  | none =>
    have h1' : l₁ = [] := oldest_entry_eq_none_iff.mp h1
    subst h1'
    rw [List.perm_nil.mp hperm.symm]
    rfl
  | some p =>
    cases h2 : oldest_entry l₂ with
    | none =>
      have h2' : l₂ = [] := oldest_entry_eq_none_iff.mp h2
      subst h2'
      rw [List.perm_nil.mp hperm] at h1
      simp at h1
    | some q =>
      obtain ⟨hp_mem, hp_min⟩ := oldest_entry_spec h1
      obtain ⟨hq_mem, hq_min⟩ := oldest_entry_spec h2
      have hq_mem1 : q ∈ l₁ := hperm.symm.subset hq_mem
      have hp_mem2 : p ∈ l₂ := hperm.subset hp_mem
      have hle1 : p.2.last_access_epoch ≤ q.2.last_access_epoch := hp_min q hq_mem1
      have hle2 : q.2.last_access_epoch ≤ p.2.last_access_epoch := hq_min p hp_mem2
      have heq : p.2.last_access_epoch = q.2.last_access_epoch := le_antisymm hle1 hle2
      have : p = q := List.inj_on_of_nodup_map hties hp_mem hq_mem1 heq
      rw [this]

theorem evict_loop_stop {s : CacheState} {size_bytes max_bytes : Nat} {acc : List String}
    (h : ¬ s.total_bytes + size_bytes > max_bytes) :
    evict_loop s size_bytes max_bytes acc = (s, acc) := by
  rw [evict_loop]
  exact if_neg h

theorem evict_loop_no_oldest {s : CacheState} {size_bytes max_bytes : Nat}
    {acc : List String} (h : s.total_bytes + size_bytes > max_bytes)
    (ho : oldest_entry s.entries = none) :
    evict_loop s size_bytes max_bytes acc = (s, acc) := by
  rw [evict_loop, if_pos h]
  split
  · rename_i q hq
    rw [ho] at hq
    exact Option.noConfusion hq
  · rfl

theorem evict_loop_step {s : CacheState} {size_bytes max_bytes : Nat}
    {acc : List String} {p : String × CacheIndexEntry}
    (h : s.total_bytes + size_bytes > max_bytes)
    (ho : oldest_entry s.entries = some p) :
    evict_loop s size_bytes max_bytes acc =
      evict_loop (remove_entry s p.1) size_bytes max_bytes (acc ++ [p.1]) := by
  rw [evict_loop, if_pos h]
  split
  · rename_i q hq
    rw [ho] at hq
    cases hq
    rfl
  · rename_i hq
    rw [ho] at hq
    exact Option.noConfusion hq

theorem remove_entry_nodup {s : CacheState} (k : String)
    (hnd : (s.entries.map Prod.fst).Nodup) :
    ((remove_entry s k).entries.map Prod.fst).Nodup :=
  (((remove_entry_entries_sublist s k).map Prod.fst).nodup) hnd

theorem remove_entry_noties {s : CacheState} (k : String) (hties : NoTies s.entries) :
    NoTies (remove_entry s k).entries :=
  (((remove_entry_entries_sublist s k).map _).nodup) hties

theorem remove_entry_perm {s1 s2 : CacheState} {k : String} {e : CacheIndexEntry}
    (hperm : s1.entries.Perm s2.entries) (hnd : (s1.entries.map Prod.fst).Nodup)
    (hmem : (k, e) ∈ s1.entries) :
    (remove_entry s1 k).entries.Perm (remove_entry s2 k).entries := by
  have hnd2 : (s2.entries.map Prod.fst).Nodup := (hperm.map Prod.fst).nodup hnd
  have hmem2 : (k, e) ∈ s2.entries := hperm.subset hmem
  simp only [remove_entry, mem_lookup_of_nodup hnd hmem, mem_lookup_of_nodup hnd2 hmem2]
  rw [eraseP_eq_filter_of_nodup hnd, eraseP_eq_filter_of_nodup hnd2]
  exact hperm.filter _

theorem remove_entry_total {s : CacheState} {k : String} {e : CacheIndexEntry}
    (hl : s.entries.lookup k = some e) :
    (remove_entry s k).total_bytes = s.total_bytes - e.size_bytes := by
  simp only [remove_entry, hl]

/-- Permutation-congruence of the eviction loop when no two entries tie on
`last_access_epoch`: the evicted key sequence is then a function of the
key→entry map (not of its iteration order). -/
theorem evict_loop_cong {size_bytes max_bytes : Nat} :
    ∀ n (s1 s2 : CacheState) (acc : List String),
      s1.entries.length ≤ n →
      s1.entries.Perm s2.entries →
      s1.total_bytes = s2.total_bytes →
      (s1.entries.map Prod.fst).Nodup →
      NoTies s1.entries →
      (evict_loop s1 size_bytes max_bytes acc).2 =
        (evict_loop s2 size_bytes max_bytes acc).2 := by
  intro n
  induction n with
  | zero =>
    intro s1 s2 acc hlen hperm htot hnd hties
    have h1 : s1.entries = [] := List.length_eq_zero.mp (Nat.le_zero.mp hlen)
    have h2 : s2.entries = [] := List.perm_nil.mp (h1 ▸ hperm).symm
    by_cases hc : s1.total_bytes + size_bytes > max_bytes
    · rw [evict_loop_no_oldest hc (by rw [h1]; rfl),
        evict_loop_no_oldest (htot ▸ hc) (by rw [h2]; rfl)]
    · rw [evict_loop_stop hc, evict_loop_stop (htot ▸ hc)]
  | succ n ih =>
    intro s1 s2 acc hlen hperm htot hnd hties
    by_cases hc : s1.total_bytes + size_bytes > max_bytes
    · cases ho : oldest_entry s1.entries with
      | none =>
        have ho2 : oldest_entry s2.entries = none := by
          rw [← oldest_entry_perm hperm hties, ho]
        rw [evict_loop_no_oldest hc ho, evict_loop_no_oldest (htot ▸ hc) ho2]
      | some p =>
        have ho2 : oldest_entry s2.entries = some p := by
          rw [← oldest_entry_perm hperm hties, ho]
        rw [evict_loop_step hc ho, evict_loop_step (htot ▸ hc) ho2]
        have hmem : (p.1, p.2) ∈ s1.entries := (oldest_entry_spec ho).1
        have hmem2 : (p.1, p.2) ∈ s2.entries := hperm.subset hmem
        have hnd2 : (s2.entries.map Prod.fst).Nodup := (hperm.map Prod.fst).nodup hnd
        have hlt := remove_entry_length_lt (s := s1) hmem
        refine ih _ _ _ (by omega) (remove_entry_perm hperm hnd hmem) ?_
          (remove_entry_nodup p.1 hnd) (remove_entry_noties p.1 hties)
        rw [remove_entry_total (mem_lookup_of_nodup hnd hmem),
          remove_entry_total (mem_lookup_of_nodup hnd2 hmem2), htot]
    · rw [evict_loop_stop hc, evict_loop_stop (htot ▸ hc)]

/-- C4 (amended): eviction-victim selection during `put` is a function of the
key→entry map, its tracked total and the incoming entry PROVIDED all
`last_access_epoch`s are distinct; with ties the victim among the tied
entries depends on the hash map's iteration order, which equal maps need not
share. -/
theorem C4_eviction_deterministic_no_ties (s1 s2 : CacheState) (key : String)
    (value : Bytes) (ttl_secs now max_bytes : Nat)
    (hperm : s1.entries.Perm s2.entries) (htot : s1.total_bytes = s2.total_bytes)
    (hnd : (s1.entries.map Prod.fst).Nodup) (hties : NoTies s1.entries) :
    (put s1 key value ttl_secs now max_bytes).evicted_keys =
      (put s2 key value ttl_secs now max_bytes).evicted_keys := by
  unfold put
  by_cases hmb : max_bytes = 0
  · rw [if_pos hmb, if_pos hmb]
  rw [if_neg hmb, if_neg hmb]
  dsimp only
  by_cases hsz : value.length > max_bytes
  · rw [if_pos hsz, if_pos hsz]
  rw [if_neg hsz, if_neg hsz]
  have hnd2 : (s2.entries.map Prod.fst).Nodup := (hperm.map Prod.fst).nodup hnd
  by_cases hcont : (s1.entries.lookup key).isSome
  · obtain ⟨e, he⟩ := Option.isSome_iff_exists.mp hcont
    have hmem1 : (key, e) ∈ s1.entries := mem_of_lookup_eq_some he
    have hmem2 : (key, e) ∈ s2.entries := hperm.subset hmem1
    have hcont2 : (s2.entries.lookup key).isSome :=
      lookup_isSome_of_mem hmem2
    rw [if_pos hcont, if_pos hcont2]
    dsimp only
    exact evict_loop_cong (remove_entry s1 key).entries.length _ _ _ le_rfl
      (remove_entry_perm hperm hnd hmem1)
      (by rw [remove_entry_total (mem_lookup_of_nodup hnd hmem1),
        remove_entry_total (mem_lookup_of_nodup hnd2 hmem2), htot])
      (remove_entry_nodup key hnd) (remove_entry_noties key hties)
  · have hcont2 : ¬ (s2.entries.lookup key).isSome := by
      intro hs
      obtain ⟨e, he⟩ := Option.isSome_iff_exists.mp hs
      exact hcont (lookup_isSome_of_mem (hperm.symm.subset (mem_of_lookup_eq_some he)))
    rw [if_neg hcont, if_neg hcont2]
    dsimp only
    exact evict_loop_cong s1.entries.length _ _ _ le_rfl hperm htot hnd hties

/-- An index entry used by the tie counterexample: 6 bytes, last access 5. -/
def tiedEntry : CacheIndexEntry := ⟨6, 0, 5, 60⟩

/-- Index `{a ↦ tiedEntry, b ↦ tiedEntry}` iterated as `a, b`. -/
def cexState1 : CacheState :=
  ⟨[("a", tiedEntry), ("b", tiedEntry)], 12, fun _ => none⟩

/-- The same key→entry map iterated as `b, a`. -/
def cexState2 : CacheState :=
  ⟨[("b", tiedEntry), ("a", tiedEntry)], 12, fun _ => none⟩

/-- C4 counterexample: two stores whose indexes are equal as key→entry maps
(a permutation) and agree on `total_bytes`, with tied `last_access_epoch`s,
evict different keys on the same `put` — so eviction is not determined by
the key→entry map alone. -/
theorem C4_counterexample :
    cexState1.entries.Perm cexState2.entries ∧
    cexState1.total_bytes = cexState2.total_bytes ∧
    (put cexState1 "c" [9, 9, 9, 9] 60 100 12).evicted_keys = ["a"] ∧
    (put cexState2 "c" [9, 9, 9, 9] 60 100 12).evicted_keys = ["b"] := by
  refine ⟨by decide, rfl, ?_, ?_⟩
  · simp [put, cexState1, tiedEntry, evict_loop.eq_def, remove_entry, oldest_entry,
      oldestStep, List.lookup]
  · simp [put, cexState2, tiedEntry, evict_loop.eq_def, remove_entry, oldest_entry,
      oldestStep, List.lookup]

theorem C4_eviction_deterministic_no_ties_witness :
    (put ⟨[("a", ⟨6, 0, 5, 60⟩), ("b", ⟨6, 0, 7, 60⟩)], 12, fun _ => none⟩
        "c" [9, 9, 9, 9] 60 100 12).evicted_keys =
      (put ⟨[("b", ⟨6, 0, 7, 60⟩), ("a", ⟨6, 0, 5, 60⟩)], 12, fun _ => none⟩
        "c" [9, 9, 9, 9] 60 100 12).evicted_keys :=
  C4_eviction_deterministic_no_ties _ _ "c" _ 60 100 12 (by decide) rfl (by decide)
    (by unfold NoTies; decide)

end CacheStore

namespace Semantic

/-- `slice::chunks(n)`: consecutive windows of at most `n` elements.  The
source only invokes it with `n > 0` (`chunks(0)` would panic; `chunk_lines`
guards it, see C10), so the `n = 0` branch here is never reached. -/
def chunksOf {α : Type} (n : Nat) (xs : List α) : List (List α) :=
  if hn : n = 0 then []
  else
    match xs with
    | [] => []
    | x :: t => (x :: t).take n :: chunksOf n ((x :: t).drop n)
termination_by xs.length
decreasing_by
  simp only [List.length_drop, List.length_cons]
  omega

/-- A line-range chunk produced by `chunk_lines` (`semantic/index.rs`). -/
structure Chunk where
  start_line : Nat
  end_line : Nat
  text : String
deriving DecidableEq, Repr

/-- Embeds `text.trim().is_empty()`: the text consists only of whitespace
(Rust `str::trim` trims Unicode `White_Space`; over the claims' inputs this
agrees with `Char.isWhitespace`). -/
def isBlank (s : String) : Bool := s.toList.all Char.isWhitespace

/-- `chunk_lines` from `semantic/index.rs`: guard `max_lines == 0`, split
into windows, derive 1-based contiguous line numbers, join with `"\n"` and
drop all-whitespace windows. -/
def chunk_lines (lines : List String) (max_lines : Nat) : List Chunk :=
  if max_lines = 0 then []
  else
    (chunksOf max_lines lines).enum.filterMap (fun ic =>
      let start_line := ic.1 * max_lines + 1
      let end_line := start_line + (ic.2.length - 1)
      let text := "\n".intercalate ic.2
      if isBlank text then none
      else some ⟨start_line, end_line, text⟩)

/-- The per-file guard in `SemanticIndex::build` (lines 118–121): a file is
indexed only when `chunk_lines` yields at least one chunk. -/
def fileIndexed (lines : List String) (max_lines : Nat) : Bool :=
  !(chunk_lines lines max_lines).isEmpty

/-- C10: with a configured chunk size of zero, `chunk_lines` returns no
chunks for any input (the window-splitting step is never reached), so the
build guard skips every file. -/
theorem C10_zero_chunk_size_total (lines : List String) :
    chunk_lines lines 0 = [] ∧ fileIndexed lines 0 = false := by
  refine ⟨by simp [chunk_lines], by simp [fileIndexed, chunk_lines]⟩

theorem ceil_div_step {len n : Nat} (hn : 0 < n) (hlen : 0 < len) :
    (len + n - 1) / n = (len - n + n - 1) / n + 1 := by
  by_cases hc : len ≤ n
  · have h1 : (len + n - 1) / n = 1 :=
      Nat.div_eq_of_lt_le (by omega) (by omega)
    have h2 : len - n = 0 := by omega
    have h3 : (n - 1) / n = 0 := Nat.div_eq_of_lt (by omega)
    rw [h1, h2, Nat.zero_add, h3]
  · have he : len + n - 1 = (len - n + n - 1) + n := by omega
    rw [he, Nat.add_div_right _ hn]

/-- `chunksOf n xs` in closed form: the `i`-th window is
`(xs.drop (i*n)).take n`, for `i` ranging over `⌈len/n⌉`. -/
theorem chunksOf_eq {α : Type} {n : Nat} (hn : 0 < n) :
    ∀ (m : Nat) (xs : List α), xs.length ≤ m →
      chunksOf n xs = (List.range ((xs.length + n - 1) / n)).map
        (fun i => (xs.drop (i * n)).take n) := by
  intro m
  induction m with
  | zero =>
    intro xs hlen
    have hnil : xs = [] := List.length_eq_zero.mp (Nat.le_zero.mp hlen)
    subst hnil
    rw [chunksOf]
    simp [Nat.div_eq_of_lt (show n - 1 < n by omega)]
  | succ m ih =>
    intro xs hlen
    cases xs with
    | nil =>
      rw [chunksOf]
      simp [Nat.div_eq_of_lt (show n - 1 < n by omega)]
    | cons x t =>
      rw [chunksOf]
      rw [dif_neg (by omega)]
      rw [ih ((x :: t).drop n)
        (by simp only [List.length_drop, List.length_cons] at hlen ⊢; omega)]
      have hstep : ((x :: t).length + n - 1) / n =
          (((x :: t).drop n).length + n - 1) / n + 1 := by
        rw [List.length_drop]
        exact ceil_div_step hn (by simp)
      rw [hstep, List.range_succ_eq_map]
      rw [List.map_cons, List.map_map]
      congr 1
      · simp
      · refine List.map_congr_left ?_
        intro i _
        simp only [Function.comp_apply, List.drop_drop]
        congr 2
        rw [Nat.succ_eq_add_one]
        ring

theorem enum_map_range {β : Type} (c : Nat) (f : Nat → β) :
    ((List.range c).map f).enum = (List.range c).map (fun i => (i, f i)) := by
  rw [List.enum_eq_zip_range, List.length_map, List.length_range]
  have h := List.zip_map' (id : Nat → Nat) f (List.range c)
  rw [List.map_id] at h
  rw [h]
  simp

/-- The chunking contract as the spec words it: consecutive windows of at
most `max_lines` lines, 1-based contiguous start/end numbers, text joined
with a newline, all-whitespace windows dropped. -/
def specChunks (lines : List String) (max_lines : Nat) : List Chunk :=
  (List.range ((lines.length + max_lines - 1) / max_lines)).filterMap (fun i =>
    let window := (lines.drop (i * max_lines)).take max_lines
    let text := "\n".intercalate window
    if isBlank text then none
    else some ⟨i * max_lines + 1, i * max_lines + window.length, text⟩)

/-- C6: for every line list and positive window size, `chunk_lines` is
exactly the spec's chunking (windows of at most `max_lines` lines with
1-based contiguous numbering, newline-joined text, whitespace-only windows
dropped); in particular four lines with `max_lines = 2` give chunks
(1–2, "one\ntwo") and (3–4, "three\nfour"). -/
theorem C6_chunking_exact (lines : List String) (max_lines : Nat)
    (hm : 0 < max_lines) :
    chunk_lines lines max_lines = specChunks lines max_lines ∧
    chunk_lines ["one", "two", "three", "four"] 2 =
      [⟨1, 2, "one\ntwo"⟩, ⟨3, 4, "three\nfour"⟩] := by
  constructor
  · unfold chunk_lines specChunks
    rw [if_neg (by omega)]
    rw [chunksOf_eq hm lines.length lines le_rfl, enum_map_range, List.filterMap_map]
    refine List.filterMap_congr ?_
    intro i hi
    simp only [List.mem_range] at hi
    have hmul : i * max_lines < lines.length := by
      have h1 : i + 1 ≤ (lines.length + max_lines - 1) / max_lines := hi
      have h2 : (i + 1) * max_lines ≤ lines.length + max_lines - 1 :=
        (Nat.le_div_iff_mul_le hm).mp h1
      have h3 : (i + 1) * max_lines = i * max_lines + max_lines := by ring
      omega
    have hwl : 1 ≤ ((lines.drop (i * max_lines)).take max_lines).length := by
      rw [List.length_take, List.length_drop]
      omega
    simp only [Function.comp_apply]
    rw [show i * max_lines + 1 + (((lines.drop (i * max_lines)).take max_lines).length - 1) =
      i * max_lines + ((lines.drop (i * max_lines)).take max_lines).length by omega]
  · have base : chunksOf 2 ([] : List String) = [] := by
      rw [chunksOf]
      rfl
    have step : ∀ (x : String) (t : List String), chunksOf 2 (x :: t) =
        (x :: t).take 2 :: chunksOf 2 ((x :: t).drop 2) := by
      intro x t
      rw [chunksOf]
      rfl
    have h1 : chunksOf 2 (["one", "two", "three", "four"] : List String) =
        [["one", "two"], ["three", "four"]] := by
      rw [step]
      rw [show (["one", "two", "three", "four"] : List String).drop 2 = ["three", "four"]
        from rfl]
      rw [step]
      rw [show (["three", "four"] : List String).drop 2 = ([] : List String) from rfl]
      rw [base]
      rfl
    simp only [chunk_lines]
    rw [if_neg (by omega), h1]
    decide

theorem C6_chunking_exact_witness :
    chunk_lines ["one", "two", "three", "four"] 2 =
      specChunks ["one", "two", "three", "four"] 2 ∧
    chunk_lines ["one", "two", "three", "four"] 2 =
      [⟨1, 2, "one\ntwo"⟩, ⟨3, 4, "three\nfour"⟩] :=
  C6_chunking_exact ["one", "two", "three", "four"] 2 (by decide)

theorem chunksOf_step {α : Type} {n : Nat} (hn : n ≠ 0) {xs : List α} (hx : xs ≠ []) :
    chunksOf n xs = xs.take n :: chunksOf n (xs.drop n) := by
  cases xs with
  | nil => exact absurd rfl hx
  | cons x t =>
    rw [chunksOf, dif_neg hn]

theorem chunksOf_append {α : Type} {n : Nat} (hn : n ≠ 0) {l₁ l₂ : List α}
    (h : l₁.length = n) : chunksOf n (l₁ ++ l₂) = l₁ :: chunksOf n l₂ := by
  have hne : l₁ ++ l₂ ≠ [] := by
    cases l₁ with
    | nil => exact absurd h.symm hn
    | cons x t => simp
  rw [chunksOf_step hn hne, List.take_left' h, List.drop_left' h]

end Semantic

namespace VectorStore

/-- An `f32` value represented by its 32-bit pattern (a `Nat` below `2^32`):
the source serializes floats bit-for-bit via `to_le_bytes`/`from_le_bytes`,
so the embedding works on the bit patterns. -/
abbrev F32Bits := Nat

/-- `f32::to_le_bytes`: the four little-endian bytes of the bit pattern. -/
def toLeBytes (w : F32Bits) : List Nat :=
  [w % 256, w / 256 % 256, w / 65536 % 256, w / 16777216 % 256]

/-- `f32::from_le_bytes` applied to one 4-byte chunk (`chunks_exact(4)`
guarantees the shape; other shapes are unreachable). -/
def fromLeBytes : List Nat → F32Bits
  | [a, b, c, d] => a + 256 * b + 65536 * c + 16777216 * d
  | _ => 0

/-- `encode_embedding` (`semantic/vector_store.rs`): concatenate each
float's little-endian bytes into one blob. -/
def encode_embedding : List F32Bits → List Nat
  | [] => []
  | w :: rest => toLeBytes w ++ encode_embedding rest

/-- `EmbeddingDecodeError { len, element_size }`: the descriptive decode
failure for a blob whose length is not a multiple of the element size. -/
structure EmbeddingDecodeError where
  len : Nat
  element_size : Nat
deriving DecidableEq, Repr

/-- `decode_embedding`: reject blobs whose length is not a multiple of 4
with the descriptive error, otherwise reassemble each exact 4-byte chunk
(the guard makes every chunk exact). -/
def decode_embedding (bytes : List Nat) : Except EmbeddingDecodeError (List F32Bits) :=
  if bytes.length % 4 ≠ 0 then .error ⟨bytes.length, 4⟩
  else .ok ((Semantic.chunksOf 4 bytes).map fromLeBytes)

theorem fromLe_toLe {w : Nat} (hw : w < 2 ^ 32) :
    fromLeBytes (toLeBytes w) = w := by
  have h : fromLeBytes (toLeBytes w) =
      w % 256 + 256 * (w / 256 % 256) + 65536 * (w / 65536 % 256) +
        16777216 * (w / 16777216 % 256) := rfl
  rw [h]
  rw [show (2 : Nat) ^ 32 = 4294967296 by norm_num] at hw
  have hA : w % 65536 = w % 256 + 256 * (w / 256 % 256) :=
    Nat.mod_mul (a := 256) (b := 256)
  have hB : w % 16777216 = w % 65536 + 65536 * (w / 65536 % 256) :=
    Nat.mod_mul (a := 65536) (b := 256)
  have hC : w % 4294967296 = w % 16777216 + 16777216 * (w / 16777216 % 256) :=
    Nat.mod_mul (a := 16777216) (b := 256)
  have hD : w % 4294967296 = w := Nat.mod_eq_of_lt hw
  rw [← hA, ← hB, ← hC, hD]

theorem encode_length (v : List F32Bits) :
    (encode_embedding v).length = 4 * v.length := by
  induction v with
  | nil => rfl
  | cons w rest ih =>
    rw [show encode_embedding (w :: rest) = toLeBytes w ++ encode_embedding rest from rfl,
      List.length_append, ih, show (toLeBytes w).length = 4 from rfl, List.length_cons]
    ring

theorem chunksOf_encode (v : List F32Bits) :
    Semantic.chunksOf 4 (encode_embedding v) = v.map toLeBytes := by
  induction v with
  | nil =>
    rw [show encode_embedding [] = [] from rfl, Semantic.chunksOf]
    rfl
  | cons w rest ih =>
    rw [show encode_embedding (w :: rest) = toLeBytes w ++ encode_embedding rest from rfl]
    rw [Semantic.chunksOf_append (by omega) (by rfl), ih]
    rfl

/-- C7: decoding an encoded `f32` vector returns it exactly (bit-for-bit,
little-endian 4-byte serialization), and decoding yields the descriptive
length error exactly when the blob length is not a multiple of 4. -/
theorem C7_embedding_round_trip :
    (∀ v : List F32Bits, (∀ x ∈ v, x < 2 ^ 32) →
      decode_embedding (encode_embedding v) = .ok v) ∧
    (∀ bytes : List Nat,
      (∃ e, decode_embedding bytes = .error e ∧ e.len = bytes.length ∧ e.element_size = 4)
        ↔ bytes.length % 4 ≠ 0) := by
  constructor
  · intro v hv
    unfold decode_embedding
    rw [if_neg (by rw [encode_length]; omega)]
    rw [chunksOf_encode, List.map_map]
    congr 1
    refine List.map_congr_left ?_ |>.trans (List.map_id v)
    intro x hx
    exact fromLe_toLe (hv x hx)
  · intro bytes
    unfold decode_embedding
    by_cases hlen : bytes.length % 4 ≠ 0
    · rw [if_pos hlen]
      simp [hlen]
    · rw [if_neg hlen]
      simp [hlen]

theorem C7_embedding_round_trip_witness :
    decode_embedding (encode_embedding [0, 1065353216, 3212836864]) =
      .ok [0, 1065353216, 3212836864] ∧
    (∃ e, decode_embedding [1, 2, 3] = .error e ∧ e.len = 3 ∧ e.element_size = 4) :=
  ⟨C7_embedding_round_trip.1 _ (by decide),
    (C7_embedding_round_trip.2 [1, 2, 3]).mpr (by decide)⟩

end VectorStore

namespace Search

/-- A search hit (`SearchHit` in `semantic/index.rs`).  The score is an
`f32` in the source; it is embedded as `ℚ` — exact float arithmetic is
outside the embedding, and the ranking claim depends only on how scores
compare, not on their values. -/
structure SearchHit where
  file_path : String
  start_line : Nat
  end_line : Nat
  score : ℚ
  chunk_id : String
deriving DecidableEq, Repr

/-- A stored chunk row as loaded by `list_embeddings`. -/
structure EmbeddingRecord where
  file_path : String
  chunk_id : String
  start_line : Nat
  end_line : Nat
  embedding : List ℚ
deriving DecidableEq, Repr

/-- `cosine_similarity`: `none` on length mismatch, empty vectors or a zero
denominator; otherwise the dot product over the product of magnitudes.
`f32` arithmetic is embedded over `ℚ`, with `Rat.sqrt` standing in for
`f32::sqrt` (the ranking claim is insensitive to the numeric value). -/
def cosine_similarity (query other : List ℚ) : Option ℚ :=
  if query.length ≠ other.length || query.isEmpty then none
  else
    let dot := ((query.zip other).map (fun p => p.1 * p.2)).sum
    let norm_a := (query.map (fun a => a * a)).sum
    let norm_b := (other.map (fun b => b * b)).sum
    let denom := Rat.sqrt norm_a * Rat.sqrt norm_b
    if denom = 0 then none else some (dot / denom)

/-- Three-way comparison on a linear order (`partial_cmp`/`cmp`; over the
embedded scores `partial_cmp` is total, so the `unwrap_or(Equal)` NaN
fallback cannot fire). -/
def cmp3 {α : Type} [LinearOrder α] (x y : α) : Ordering :=
  if x < y then .lt else if x = y then .eq else .gt

/-- `score_cmp`: descending score, then ascending file path, then ascending
start line. -/
def score_cmp (a b : SearchHit) : Ordering :=
  ((cmp3 b.score a.score).then (cmp3 a.file_path b.file_path)).then
    (cmp3 a.start_line b.start_line)

/-- `SemanticIndex::search` after the query has been embedded: score every
candidate (silently dropping mismatched-dimension/empty/zero-norm ones),
sort with `score_cmp` and truncate to `top_k`.  Rust's `sort_by` is a
stable sort; over a total comparator the stable result is unique, modelled
here by insertion sort. -/
def search_rank (query : List ℚ) (candidates : List EmbeddingRecord)
    (top_k : Nat) : List SearchHit :=
  let scored := candidates.filterMap (fun c =>
    (cosine_similarity query c.embedding).map (fun score =>
      { file_path := c.file_path, start_line := c.start_line,
        end_line := c.end_line, score := score, chunk_id := c.chunk_id }))
  (List.insertionSort (fun a b => score_cmp a b ≠ .gt) scored).take top_k

/-- The ordering the spec asks of the returned list: non-increasing score,
ties broken by ascending file path and then ascending start line. -/
def specLe (a b : SearchHit) : Prop :=
  b.score < a.score ∨ (b.score = a.score ∧
    (a.file_path < b.file_path ∨
      (a.file_path = b.file_path ∧ a.start_line ≤ b.start_line)))

theorem cmp3_eq_lt {α : Type} [LinearOrder α] {x y : α} :
    cmp3 x y = .lt ↔ x < y := by
  unfold cmp3
  split
  · simp [*]
  · split <;> simp [*]

theorem cmp3_eq_eq {α : Type} [LinearOrder α] {x y : α} :
    cmp3 x y = .eq ↔ x = y := by
  unfold cmp3
  split
  · constructor
    · intro h; exact absurd h (by simp)
    · intro h; subst h; simp_all
  · split <;> simp [*]

theorem cmp3_ne_gt {α : Type} [LinearOrder α] {x y : α} :
    cmp3 x y ≠ .gt ↔ x ≤ y := by
  unfold cmp3
  split
  · rename_i h
    simpa using le_of_lt h
  · rename_i h
    split
    · rename_i he
      subst he
      simp
    · rename_i he
      have hyx : y < x := lt_of_le_of_ne (not_lt.mp h) (fun hxy => he hxy.symm)
      simpa using not_le.mpr hyx

theorem then_ne_gt {o₁ o₂ : Ordering} :
    o₁.then o₂ ≠ .gt ↔ o₁ = .lt ∨ (o₁ = .eq ∧ o₂ ≠ .gt) := by
  cases o₁ <;> simp [Ordering.then]

theorem then_eq_lt {o₁ o₂ : Ordering} :
    o₁.then o₂ = .lt ↔ o₁ = .lt ∨ (o₁ = .eq ∧ o₂ = .lt) := by
  cases o₁ <;> simp [Ordering.then]

theorem then_eq_eq {o₁ o₂ : Ordering} :
    o₁.then o₂ = .eq ↔ o₁ = .eq ∧ o₂ = .eq := by
  cases o₁ <;> simp [Ordering.then]

/-- The comparator's "not greater" relation is exactly the spec ordering. -/
theorem score_cmp_ne_gt_iff {a b : SearchHit} :
    score_cmp a b ≠ .gt ↔ specLe a b := by
  unfold score_cmp specLe
  rw [then_ne_gt, then_eq_lt, then_eq_eq]
  rw [cmp3_eq_lt, cmp3_eq_eq, cmp3_eq_lt, cmp3_eq_eq, cmp3_ne_gt]
  tauto

theorem specLe_total (a b : SearchHit) : specLe a b ∨ specLe b a := by
  unfold specLe
  rcases lt_trichotomy a.score b.score with h | h | h
  · right; left; exact h
  · rcases lt_trichotomy a.file_path b.file_path with h' | h' | h'
    · left; right; exact ⟨h.symm, Or.inl h'⟩
    · rcases Nat.le_total a.start_line b.start_line with h'' | h''
      · left; right; exact ⟨h.symm, Or.inr ⟨h', h''⟩⟩
      · right; right; exact ⟨h, Or.inr ⟨h'.symm, h''⟩⟩
    · right; right; exact ⟨h, Or.inl h'⟩
  · left; left; exact h

theorem specLe_trans {a b c : SearchHit} (hab : specLe a b) (hbc : specLe b c) :
    specLe a c := by
  unfold specLe at *
  rcases hab with h1 | ⟨h1, h1'⟩
  · rcases hbc with h2 | ⟨h2, h2'⟩
    · exact Or.inl (h2.trans h1)
    · exact Or.inl (h2 ▸ h1)
  · rcases hbc with h2 | ⟨h2, h2'⟩
    · exact Or.inl (h1 ▸ h2)
    · refine Or.inr ⟨h1 ▸ h2, ?_⟩
      rcases h1' with h3 | ⟨h3, h3'⟩
      · rcases h2' with h4 | ⟨h4, h4'⟩
        · exact Or.inl (h3.trans h4)
        · exact Or.inl (h4 ▸ h3)
      · rcases h2' with h4 | ⟨h4, h4'⟩
        · exact Or.inl (h3 ▸ h4)
        · exact Or.inr ⟨h3 ▸ h4, le_trans h3' h4'⟩

/-- C8: the hit list returned by search is sorted non-increasingly by score
with ties ordered by ascending file path then ascending start line, is
truncated to at most `top_k`, and every hit carries the cosine score of one
of the stored chunks — making the returned list a deterministic function of
the stored chunks and the query embedding. -/
theorem C8_search_ranking (query : List ℚ) (candidates : List EmbeddingRecord)
    (top_k : Nat) :
    (search_rank query candidates top_k).Pairwise specLe ∧
    (search_rank query candidates top_k).length ≤ top_k ∧
    ∀ hit ∈ search_rank query candidates top_k, ∃ c ∈ candidates,
      cosine_similarity query c.embedding = some hit.score ∧
      hit = { file_path := c.file_path, start_line := c.start_line,
              end_line := c.end_line, score := hit.score, chunk_id := c.chunk_id } := by
  haveI htot : IsTotal SearchHit (fun a b => score_cmp a b ≠ .gt) := ⟨by
    intro a b
    rw [score_cmp_ne_gt_iff, score_cmp_ne_gt_iff]
    exact specLe_total a b⟩
  haveI htrans : IsTrans SearchHit (fun a b => score_cmp a b ≠ .gt) := ⟨by
    intro a b c hab hbc
    rw [score_cmp_ne_gt_iff] at *
    exact specLe_trans hab hbc⟩
  refine ⟨?_, ?_, ?_⟩
  · have hs := List.sorted_insertionSort (fun a b => score_cmp a b ≠ .gt)
      (candidates.filterMap (fun c =>
        (cosine_similarity query c.embedding).map (fun score =>
          { file_path := c.file_path, start_line := c.start_line,
            end_line := c.end_line, score := score, chunk_id := c.chunk_id })))
    have hp : (List.insertionSort (fun a b => score_cmp a b ≠ .gt)
        (candidates.filterMap (fun c =>
          (cosine_similarity query c.embedding).map (fun score =>
            { file_path := c.file_path, start_line := c.start_line,
              end_line := c.end_line, score := score,
              chunk_id := c.chunk_id })))).Pairwise specLe :=
      List.Pairwise.imp (fun h => score_cmp_ne_gt_iff.mp h) hs
    exact hp.sublist (List.take_sublist _ _)
  · rw [search_rank]
    simp only [List.length_take]
    exact min_le_left _ _
  · intro hit hmem
    have hmem2 : hit ∈ List.insertionSort (fun a b => score_cmp a b ≠ .gt)
        (candidates.filterMap (fun c =>
          (cosine_similarity query c.embedding).map (fun score =>
            { file_path := c.file_path, start_line := c.start_line,
              end_line := c.end_line, score := score, chunk_id := c.chunk_id }))) :=
      List.take_subset _ _ hmem
    have hmem3 := (List.perm_insertionSort (fun a b => score_cmp a b ≠ .gt) _).subset hmem2
    obtain ⟨c, hc, hmap⟩ := List.mem_filterMap.mp hmem3
    obtain ⟨s, hs, hfs⟩ := Option.map_eq_some'.mp hmap
    refine ⟨c, hc, ?_, ?_⟩
    · rw [hs, ← hfs]
    · rw [← hfs]

end Search

namespace Manager

/-- The aggregate `CacheCounters` of `telemetry/mod.rs` (the per-tool
breakdown mirrors the same recording calls). -/
structure CacheCounters where
  hits : Nat
  misses : Nat
  stores : Nat
  evictions : Nat
deriving DecidableEq, Repr

/-- `CacheCounters::record_hit`. -/
def record_hit (t : CacheCounters) : CacheCounters := { t with hits := t.hits + 1 }

/-- `CacheCounters::record_miss`. -/
def record_miss (t : CacheCounters) : CacheCounters := { t with misses := t.misses + 1 }

/-- `CacheCounters::record_store`. -/
def record_store (t : CacheCounters) : CacheCounters := { t with stores := t.stores + 1 }

/-- `CacheCounters::record_eviction`. -/
def record_eviction (t : CacheCounters) : CacheCounters :=
  { t with evictions := t.evictions + 1 }

/-- What the underlying store's `get` returns, as observed by the manager:
`Ok(Some(entry))`, `Ok(None)`, or an I/O error. -/
inductive StoreGetResult where
  | okSome (value : List Nat)
  | okNone
  | ioError
deriving DecidableEq, Repr

/-- `CacheManager::get` (`cache/manager.rs`): disabled short-circuits to
`None`; a hit records a hit, a miss records a miss, and a store error is
logged and degrades to `None` with no telemetry call. -/
def managerGet (enabled : Bool) (res : StoreGetResult) (t : CacheCounters) :
    Option (List Nat) × CacheCounters :=
  if !enabled then (none, t)
  else
    match res with
    | .okSome v => (some v, record_hit t)
    | .okNone => (none, record_miss t)
    | .ioError => (none, t)

/-- What the underlying store's `put` returns: the eviction count or an
I/O error. -/
inductive StorePutResult where
  | ok (evicted : Nat)
  | ioError
deriving DecidableEq, Repr

/-- The `for _ in 0..evicted { record_eviction() }` loop. -/
def applyEvictions : Nat → CacheCounters → CacheCounters
  | 0, t => t
  | n + 1, t => applyEvictions n (record_eviction t)

/-- `CacheManager::put`: disabled or failing stores record nothing; a
successful store records one store event then one eviction per evicted
entry. -/
def managerPut (enabled : Bool) (res : StorePutResult) (t : CacheCounters) :
    CacheCounters :=
  if !enabled then t
  else
    match res with
    | .ok evicted => applyEvictions evicted (record_store t)
    | .ioError => t

theorem applyEvictions_spec : ∀ (n : Nat) (t : CacheCounters),
    applyEvictions n t = { t with evictions := t.evictions + n } := by
  intro n
  induction n with
  | zero => intro t; rfl
  | succ n ih =>
    intro t
    rw [applyEvictions, ih]
    simp only [record_eviction]
    congr 1
    omega

/-- C9 (amended): with the cache enabled, `get` never propagates an error;
it records exactly one outcome when the store call succeeds — a hit when a
value is returned, a miss otherwise — while a store failure degrades to
`none` with no telemetry recorded; `put` records one store event plus one
eviction event per evicted entry on success, and nothing (a no-op) on store
failure. -/
theorem C9_manager_telemetry (t : CacheCounters) (v : List Nat) (n : Nat) :
    managerGet true (.okSome v) t = (some v, { t with hits := t.hits + 1 }) ∧
    managerGet true .okNone t = (none, { t with misses := t.misses + 1 }) ∧
    managerGet true .ioError t = (none, t) ∧
    managerPut true (.ok n) t =
      { t with stores := t.stores + 1, evictions := t.evictions + n } ∧
    managerPut true .ioError t = t := by
  refine ⟨rfl, rfl, rfl, ?_, rfl⟩
  show applyEvictions n (record_store t) = _
  rw [applyEvictions_spec]
  rfl

/-- C9 counterexample: with the cache enabled and the store's `get` failing,
the manager returns `none` but records no telemetry outcome at all — in
particular no miss — contradicting "records exactly one telemetry outcome
… including the case where the underlying store's get fails". -/
theorem C9_counterexample :
    managerGet true .ioError ⟨0, 0, 0, 0⟩ = (none, ⟨0, 0, 0, 0⟩) ∧
    (managerGet true .ioError ⟨0, 0, 0, 0⟩).2.misses = 0 ∧
    (managerGet true .ioError ⟨0, 0, 0, 0⟩).2.hits = 0 :=
  ⟨rfl, rfl, rfl⟩

end Manager

namespace ToolCacheKey

/-- A `serde_json::Value`.  A number is represented by its serialized
decimal literal: `canonical_json` passes scalars through unchanged and
serialization merely prints them, so the literal is all this pipeline
observes of a number. -/
inductive Json where
  | null
  | bool (b : Bool)
  | num (lit : String)
  | str (s : String)
  | arr (items : List Json)
  | obj (entries : List (String × Json))
deriving Repr

/-- A `serde_json` value as it can actually occur: every object's keys are
distinct (serde maps hold unique keys; the Lean list representation is
wider). -/
inductive WellFormed : Json → Prop where
  | null : WellFormed .null
  | bool (b : Bool) : WellFormed (.bool b)
  | num (lit : String) : WellFormed (.num lit)
  | str (s : String) : WellFormed (.str s)
  | arr {items : List Json} : (∀ x ∈ items, WellFormed x) → WellFormed (.arr items)
  | obj {entries : List (String × Json)} : (entries.map Prod.fst).Nodup →
      (∀ p ∈ entries, WellFormed p.2) → WellFormed (.obj entries)

/-- Equality of JSON values up to object-key order at any nesting depth:
scalars must agree, arrays must agree pointwise, and each object entry must
be matched by key on the other side with an equivalent value. -/
inductive KeyOrderEquiv : Json → Json → Prop where
  | null : KeyOrderEquiv .null .null
  | bool (b : Bool) : KeyOrderEquiv (.bool b) (.bool b)
  | num (lit : String) : KeyOrderEquiv (.num lit) (.num lit)
  | str (s : String) : KeyOrderEquiv (.str s) (.str s)
  | arr {xs ys : List Json} : xs.length = ys.length →
      (∀ p ∈ xs.zip ys, KeyOrderEquiv p.1 p.2) → KeyOrderEquiv (.arr xs) (.arr ys)
  | obj {kvs₁ kvs₂ : List (String × Json)} : kvs₁.length = kvs₂.length →
      (∀ p ∈ kvs₁, (kvs₂.lookup p.1).isSome) →
      (∀ p ∈ kvs₁, ∀ v₂, kvs₂.lookup p.1 = some v₂ → KeyOrderEquiv p.2 v₂) →
      KeyOrderEquiv (.obj kvs₁) (.obj kvs₂)

/-- `canonical_json` (`cache/tool_cache.rs`): recursively sort object keys
(arrays keep their order, scalars pass through).  The source canonicalizes
each looked-up value after sorting; here the values are canonicalized first
(via `attach`, for termination) and then arranged by sorted key — the same
function on serde maps, whose lookups are pure.  `Vec::sort` on the unique
keys is modelled by insertion sort (any correct sort agrees on them). -/
def canonical_json : Json → Json
  | .null => .null
  | .bool b => .bool b
  | .num lit => .num lit
  | .str s => .str s
  | .arr items => .arr (items.attach.map (fun x => canonical_json x.1))
  | .obj entries =>
      let canon := entries.attach.map (fun p => (p.1.1, canonical_json p.1.2))
      .obj (((entries.map Prod.fst).insertionSort (· ≤ ·)).filterMap
        (fun k => (canon.lookup k).map (fun v => (k, v))))
termination_by j => sizeOf j
decreasing_by
  · have h1 := List.sizeOf_lt_of_mem x.2
    simp only [Json.arr.sizeOf_spec]
    omega
  · have h1 := List.sizeOf_lt_of_mem p.2
    have h2 : sizeOf p.1.2 < sizeOf p.1 := by
      cases hp : p.1 with
      | mk a b => simp [hp]
    simp only [Json.obj.sizeOf_spec]
    omega

theorem canonical_json_arr (items : List Json) :
    canonical_json (.arr items) = .arr (items.map canonical_json) := by
  rw [canonical_json]
  rw [List.attach_map_val items canonical_json]

theorem lookup_map_snd {β : Type} (f : Json → β) (kvs : List (String × Json))
    (k : String) :
    (kvs.map (fun p => (p.1, f p.2))).lookup k = (kvs.lookup k).map f := by
  induction kvs with
  | nil => rfl
  | cons p t ih =>
    rw [List.map_cons, List.lookup_cons, List.lookup_cons]
    by_cases hk : k == p.1
    · simp only [hk]
      rfl
    · simp only [Bool.not_eq_true] at hk
      simp only [hk]
      exact ih

theorem canonical_json_obj (entries : List (String × Json)) :
    canonical_json (.obj entries) =
      .obj (((entries.map Prod.fst).insertionSort (· ≤ ·)).filterMap
        (fun k => (entries.lookup k).map (fun v => (k, canonical_json v)))) := by
  rw [canonical_json]
  have hattach : entries.attach.map (fun p => (p.1.1, canonical_json p.1.2)) =
      entries.map (fun p => (p.1, canonical_json p.2)) :=
    List.attach_map_val entries (fun p => (p.1, canonical_json p.2))
  rw [hattach]
  congr 1
  refine List.filterMap_congr ?_
  intro k _
  rw [lookup_map_snd canonical_json entries k]
  cases entries.lookup k <;> rfl

theorem lookup_mem_json {l : List (String × Json)} {k : String} {v : Json}
    (h : l.lookup k = some v) : (k, v) ∈ l := by
  obtain ⟨l₁, l₂, rfl, -⟩ := List.lookup_eq_some_iff.mp h
  simp

theorem mem_keys_of_lookup_isSome {l : List (String × Json)} {k : String}
    (h : (l.lookup k).isSome) : k ∈ l.map Prod.fst := by
  obtain ⟨p, hp, hk⟩ := List.lookup_isSome_iff.mp h
  exact List.mem_map.mpr ⟨p, hp, by simpa using (beq_iff_eq.mp hk).symm⟩

theorem lookup_isSome_of_mem_keys {l : List (String × Json)} {k : String}
    (h : k ∈ l.map Prod.fst) : (l.lookup k).isSome := by
  rcases List.mem_map.mp h with ⟨p, hp, hk⟩
  exact List.lookup_isSome_iff.mpr ⟨p, hp, by simp [hk]⟩

theorem lookup_eq_some_of_mem_nodup {l : List (String × Json)} {k : String} {v : Json}
    (hnd : (l.map Prod.fst).Nodup) (h : (k, v) ∈ l) : l.lookup k = some v := by
  induction l with
  | nil => simp at h
  | cons p t ih =>
    simp only [List.map_cons, List.nodup_cons] at hnd
    rcases List.mem_cons.mp h with rfl | hmem
    · simp
    · have hne : k ≠ p.1 := by
        intro hkp
        exact hnd.1 (List.mem_map.mpr ⟨(k, v), hmem, hkp⟩)
      rw [List.lookup_cons]
      simp only [show (k == p.1) = false by simp [hne]]
      exact ih hnd.2 hmem

theorem map_eq_of_forall_zip {α β : Type} {f : α → β} :
    ∀ {xs ys : List α}, xs.length = ys.length →
      (∀ p ∈ xs.zip ys, f p.1 = f p.2) → xs.map f = ys.map f := by
  intro xs
  induction xs with
  | nil =>
    intro ys h _
    rw [List.length_nil] at h
    rw [List.length_eq_zero.mp h.symm]
  | cons x t ih =>
    intro ys hlen hz
    cases ys with
    | nil => simp at hlen
    | cons y u =>
      simp only [List.map_cons]
      have h1 : f x = f y := hz (x, y) (by simp [List.zip_cons_cons])
      rw [h1, ih (by simpa using hlen)
        (fun p hp => hz p (by simp [List.zip_cons_cons, hp]))]

/-- Canonicalization identifies JSON values that are equal up to object-key
order (on well-formed, i.e. duplicate-free, values). -/
theorem canonical_json_equiv : ∀ {a b : Json}, KeyOrderEquiv a b →
    WellFormed a → WellFormed b → canonical_json a = canonical_json b := by
  intro a b h
  induction h with
  | null => intro _ _; rfl
  | bool b => intro _ _; rfl
  | num lit => intro _ _; rfl
  | str s => intro _ _; rfl
  | arr hlen hz ih =>
    intro ha hb
    cases ha with | arr hxs =>
    cases hb with | arr hys =>
    rw [canonical_json_arr, canonical_json_arr]
    congr 1
    refine map_eq_of_forall_zip hlen ?_
    intro p hp
    have hmem := List.of_mem_zip (a := p.1) (b := p.2) hp
    exact ih p hp (hxs p.1 hmem.1) (hys p.2 hmem.2)
  | obj hlen hsome hequiv ih =>
    rename_i kvs₁ kvs₂
    intro ha hb
    cases ha with | obj hnd₁ hwf₁ =>
    cases hb with | obj hnd₂ hwf₂ =>
    rw [canonical_json_obj, canonical_json_obj]
    have hsub : kvs₁.map Prod.fst ⊆ kvs₂.map Prod.fst := by
      intro k hk
      rcases List.mem_map.mp hk with ⟨p, hp, rfl⟩
      exact mem_keys_of_lookup_isSome (hsome p hp)
    have hperm : (kvs₁.map Prod.fst).Perm (kvs₂.map Prod.fst) :=
      (List.subperm_of_subset hnd₁ hsub).perm_of_length_le (by simp [hlen])
    have hsorted : (kvs₁.map Prod.fst).insertionSort (· ≤ ·) =
        (kvs₂.map Prod.fst).insertionSort (· ≤ ·) := by
      refine List.eq_of_perm_of_sorted ?_ (List.sorted_insertionSort _ _)
        (List.sorted_insertionSort _ _)
      exact ((List.perm_insertionSort _ _).trans hperm).trans
        (List.perm_insertionSort _ _).symm
    rw [hsorted]
    congr 1
    refine List.filterMap_congr ?_
    intro k hk
    have hk2 : k ∈ kvs₂.map Prod.fst :=
      (List.perm_insertionSort (· ≤ ·) (kvs₂.map Prod.fst)).mem_iff.mp hk
    have hk1 : k ∈ kvs₁.map Prod.fst := hperm.mem_iff.mpr hk2
    obtain ⟨v₁, hv₁⟩ := Option.isSome_iff_exists.mp (lookup_isSome_of_mem_keys hk1)
    obtain ⟨v₂, hv₂⟩ := Option.isSome_iff_exists.mp (lookup_isSome_of_mem_keys hk2)
    rw [hv₁, hv₂]
    have hmem₁ := lookup_mem_json hv₁
    have hmem₂ := lookup_mem_json hv₂
    have hcanon : canonical_json v₁ = canonical_json v₂ :=
      ih (k, v₁) hmem₁ v₂ hv₂ (hwf₁ (k, v₁) hmem₁) (hwf₂ (k, v₂) hmem₂)
    rw [Option.map_some', Option.map_some', hcanon]

/-- Decimal digit characters of `n` (most significant first): the rendering
produced by Rust's `Display` for unsigned integers (and by Lean's own
`toString`). -/
def decDigits (n : Nat) : List Char :=
  if h : n < 10 then [Nat.digitChar n]
  else decDigits (n / 10) ++ [Nat.digitChar (n % 10)]
termination_by n
decreasing_by
  exact Nat.div_lt_self (by omega) (by omega)

/-- Decimal rendering of a `Nat` (`format!("{n}")` on `u64`/`u128`). -/
def natDecimal (n : Nat) : String := ⟨decDigits n⟩

theorem decDigits_getLast? (n : Nat) :
    (decDigits n).getLast? = some (Nat.digitChar (n % 10)) := by
  rw [decDigits]
  split
  · rename_i h
    rw [Nat.mod_eq_of_lt h]
    rfl
  · exact List.getLast?_concat _

theorem decDigits_ne_nil (n : Nat) : decDigits n ≠ [] := by
  rw [decDigits]
  split
  · simp
  · simp

theorem decDigits_dropLast (n : Nat) :
    (decDigits n).dropLast = if n < 10 then [] else decDigits (n / 10) := by
  rw [decDigits]
  split
  · rfl
  · rw [List.dropLast_concat]

theorem digitChar_inj {a b : Nat} (ha : a < 10) (hb : b < 10)
    (h : Nat.digitChar a = Nat.digitChar b) : a = b := by
  interval_cases a <;> interval_cases b <;> revert h <;> decide

theorem decDigits_inj : ∀ n m : Nat, decDigits n = decDigits m → n = m := by
  intro n
  induction n using Nat.strong_induction_on with
  | _ n ih =>
    intro m h
    have hlast : Nat.digitChar (n % 10) = Nat.digitChar (m % 10) := by
      have h1 := decDigits_getLast? n
      have h2 := decDigits_getLast? m
      rw [h, h2] at h1
      exact (Option.some.injEq _ _ ▸ h1).symm ▸ rfl
    have hmod : n % 10 = m % 10 :=
      digitChar_inj (Nat.mod_lt _ (by omega)) (Nat.mod_lt _ (by omega)) hlast
    have hdrop : (decDigits n).dropLast = (decDigits m).dropLast := by rw [h]
    rw [decDigits_dropLast, decDigits_dropLast] at hdrop
    by_cases hn : n < 10
    · by_cases hm : m < 10
      · have := Nat.mod_eq_of_lt hn ▸ Nat.mod_eq_of_lt hm ▸ hmod
        omega
      · rw [if_pos hn, if_neg hm] at hdrop
        exact absurd hdrop.symm (decDigits_ne_nil _)
    · by_cases hm : m < 10
      · rw [if_neg hn, if_pos hm] at hdrop
        exact absurd hdrop (decDigits_ne_nil _)
      · rw [if_neg hn, if_neg hm] at hdrop
        have hdiv : n / 10 = m / 10 := ih (n / 10) (Nat.div_lt_self (by omega) (by omega)) _ hdrop
        omega

theorem natDecimal_inj {n m : Nat} (h : natDecimal n = natDecimal m) : n = m := by
  apply decDigits_inj
  have := congrArg String.data h
  simpa [natDecimal] using this

/-- `serde_json`'s string escaping: quote, backslash, and the named control
escapes, with all other control characters as `\u00XX`. -/
def escapeJsonChar (c : Char) : List Char :=
  if c = '"' then ['\\', '"']
  else if c = '\\' then ['\\', '\\']
  else if c = '\n' then ['\\', 'n']
  else if c = '\r' then ['\\', 'r']
  else if c = '\t' then ['\\', 't']
  else if c = '\x08' then ['\\', 'b']
  else if c = '\x0c' then ['\\', 'f']
  else if c.toNat < 32 then
    ['\\', 'u', '0', '0', Nat.digitChar (c.toNat / 16), Nat.digitChar (c.toNat % 16)]
  else [c]

/-- A JSON string literal: escaped content between quotes. -/
def serializeString (s : String) : String :=
  "\"" ++ ⟨(s.data.map escapeJsonChar).flatten⟩ ++ "\""

/-- `serde_json::to_string`: the compact serialization the key derivation
feeds to the hash. -/
def serializeJson : Json → String
  | .null => "null"
  | .bool b => if b then "true" else "false"
  | .num lit => lit
  | .str s => serializeString s
  | .arr items => "[" ++ ",".intercalate (items.attach.map (fun x => serializeJson x.1)) ++ "]"
  | .obj entries => "\x7b" ++ ",".intercalate (entries.attach.map (fun p =>
      serializeString p.1.1 ++ ":" ++ serializeJson p.1.2)) ++ "\x7d"
termination_by j => sizeOf j
decreasing_by
  · have h1 := List.sizeOf_lt_of_mem x.2
    simp only [Json.arr.sizeOf_spec]
    omega
  · have h1 := List.sizeOf_lt_of_mem p.2
    have h2 : sizeOf p.1.2 < sizeOf p.1 := by
      cases hp : p.1 with
      | mk a b => simp [hp]
    simp only [Json.obj.sizeOf_spec]
    omega

/-- `PathStamp { mtime_nanos, size_bytes }` (`u128`/`u64` as `Nat`). -/
structure PathStamp where
  mtime_nanos : Nat
  size_bytes : Nat
deriving DecidableEq, Repr

/-- `normalize_path`: backslashes replaced by forward slashes (paths are
embedded as their lossy string form). -/
def normalize_path (p : String) : String :=
  String.map (fun c => if c = '\\' then '/' else c) p

/-- The pre-hash key material of `build_tool_cache_key`:
`{tool}|{canonical args}|{workspace}|{target}|{mtime_nanos}|{size_bytes}`. -/
def rawToolCacheKey (tool_name : String) (args : Json)
    (workspace_root target_path : String) (stamp : PathStamp) : String :=
  tool_name ++ "|" ++ serializeJson (canonical_json args) ++ "|" ++
    normalize_path workspace_root ++ "|" ++ normalize_path target_path ++ "|" ++
    natDecimal stamp.mtime_nanos ++ "|" ++ natDecimal stamp.size_bytes

/-- `build_tool_cache_key` (`cache/tool_cache.rs`).  Modelled from the spec:
the final step hashes the key material with the external `sha2` crate's
SHA-256, rendered as lowercase hex.  That crate is not part of this
repository; it is abstracted as the `digest` parameter, whose contract as a
cryptographic hash (collision-freedom) is assumed where a claim needs it.
The repository's own contribution — canonicalization and key-material
assembly — is embedded exactly. -/
def build_tool_cache_key (digest : String → String) (tool_name : String)
    (args : Json) (workspace_root target_path : String) (stamp : PathStamp) : String :=
  digest (rawToolCacheKey tool_name args workspace_root target_path stamp)

theorem rawToolCacheKey_mtime_inj {tool_name : String} {args : Json}
    {workspace_root target_path : String} {m₁ m₂ size_bytes : Nat}
    (h : rawToolCacheKey tool_name args workspace_root target_path ⟨m₁, size_bytes⟩ =
      rawToolCacheKey tool_name args workspace_root target_path ⟨m₂, size_bytes⟩) :
    m₁ = m₂ := by
  unfold rawToolCacheKey at h
  have hd := congrArg String.data h
  simp only [String.data_append] at hd
  have h1 := List.append_inj_left' hd rfl
  have h2 := List.append_inj_left' h1 rfl
  have h3 := List.append_inj_right h2 rfl
  exact natDecimal_inj (congrArg String.mk h3)

/-- C5: for any collision-free digest (the cryptographic-hash contract of
the external SHA-256), `build_tool_cache_key` yields identical keys on
argument values equal up to object-key order at any nesting depth (same
tool, paths and stamp), and differs whenever only the stamp's
`mtime_nanos` changes. -/
theorem C5_canonical_key (digest : String → String)
    (hinj : Function.Injective digest)
    (tool_name workspace_root target_path : String) (args₁ args₂ : Json)
    (h₁ : WellFormed args₁) (h₂ : WellFormed args₂)
    (heq : KeyOrderEquiv args₁ args₂) (stamp : PathStamp) :
    build_tool_cache_key digest tool_name args₁ workspace_root target_path stamp =
      build_tool_cache_key digest tool_name args₂ workspace_root target_path stamp ∧
    ∀ m₁ m₂ size_bytes : Nat, m₁ ≠ m₂ →
      build_tool_cache_key digest tool_name args₁ workspace_root target_path
          ⟨m₁, size_bytes⟩ ≠
        build_tool_cache_key digest tool_name args₁ workspace_root target_path
          ⟨m₂, size_bytes⟩ := by
  constructor
  · unfold build_tool_cache_key rawToolCacheKey
    rw [canonical_json_equiv heq h₁ h₂]
  · intro m₁ m₂ size_bytes hne hkey
    exact hne (rawToolCacheKey_mtime_inj (hinj hkey))

theorem C5_canonical_key_witness :
    build_tool_cache_key id "read_file" (.obj [("b", .bool true), ("a", .num "1")])
        "/tmp" "/tmp/a" ⟨1, 2⟩ =
      build_tool_cache_key id "read_file" (.obj [("a", .num "1"), ("b", .bool true)])
        "/tmp" "/tmp/a" ⟨1, 2⟩ ∧
    build_tool_cache_key id "read_file" (.obj [("b", .bool true), ("a", .num "1")])
        "/tmp" "/tmp/a" ⟨10, 20⟩ ≠
      build_tool_cache_key id "read_file" (.obj [("b", .bool true), ("a", .num "1")])
        "/tmp" "/tmp/a" ⟨11, 20⟩ := by
  have hwf₁ : WellFormed (.obj [("b", .bool true), ("a", .num "1")]) := by
    refine WellFormed.obj (by decide) ?_
    intro p hp
    simp only [List.mem_cons, List.not_mem_nil, or_false] at hp
    rcases hp with rfl | rfl
    · exact WellFormed.bool true
    · exact WellFormed.num "1"
  have hwf₂ : WellFormed (.obj [("a", .num "1"), ("b", .bool true)]) := by
    refine WellFormed.obj (by decide) ?_
    intro p hp
    simp only [List.mem_cons, List.not_mem_nil, or_false] at hp
    rcases hp with rfl | rfl
    · exact WellFormed.num "1"
    · exact WellFormed.bool true
  have heq : KeyOrderEquiv (.obj [("b", .bool true), ("a", .num "1")])
      (.obj [("a", .num "1"), ("b", .bool true)]) := by
    refine KeyOrderEquiv.obj rfl ?_ ?_
    · intro p hp
      simp only [List.mem_cons, List.not_mem_nil, or_false] at hp
      rcases hp with rfl | rfl <;> decide
    · intro p hp v₂ hv
      simp only [List.mem_cons, List.not_mem_nil, or_false] at hp
      rcases hp with rfl | rfl
      · have : v₂ = Json.bool true := by
          rw [show List.lookup "b" [("a", Json.num "1"), ("b", Json.bool true)] =
            some (Json.bool true) from rfl] at hv
          exact (Option.some.injEq _ _ ▸ hv).symm
        rw [this]
        exact KeyOrderEquiv.bool true
      · have : v₂ = Json.num "1" := by
          rw [show List.lookup "a" [("a", Json.num "1"), ("b", Json.bool true)] =
            some (Json.num "1") from rfl] at hv
          exact (Option.some.injEq _ _ ▸ hv).symm
        rw [this]
        exact KeyOrderEquiv.num "1"
  exact ⟨(C5_canonical_key id (fun _ _ h => h) "read_file" "/tmp" "/tmp/a" _ _
      hwf₁ hwf₂ heq ⟨1, 2⟩).1,
    (C5_canonical_key id (fun _ _ h => h) "read_file" "/tmp" "/tmp/a" _ _
      hwf₁ hwf₂ heq ⟨10, 20⟩).2 10 11 20 (by decide)⟩

end ToolCacheKey

